import Mathlib

/-!
Verification of the self-auditing container core of `debug-gym`
(`buggy_cpp_samples/data_structure_bugs/data_structure_bugs.cpp`):
an augmented binary search tree (`BinarySearchTree` over `BSTreeNode`)
with cached `subtree_size` / `height` fields and an invariant auditor,
and an array-backed priority queue (`PriorityQueue`) with a heap-order
auditor.  Every definition below is a direct shallow embedding of the
corresponding C++ member function; theorems check the specified
properties against these definitions.
-/

/-- `INT_MIN` for 32-bit `int`, the lower bound used by `check_bst_invariant`. -/
def INT_MIN : Int := -2147483648

/-- `INT_MAX` for 32-bit `int`, the upper bound used by `check_bst_invariant`. -/
def INT_MAX : Int := 2147483647

/-- Shallow embedding of `BSTreeNode`: `data`, owned `left`/`right` children
(`nil` for a null pointer), cached `height` and cached `subtree_size`
(both C++ `int`, modelled as `Int`). -/
inductive BTree where
  | nil : BTree
  | node (data : Int) (left right : BTree) (height : Int) (subtree_size : Int) : BTree
deriving DecidableEq, Repr

namespace BTree

/-- `node ? node->subtree_size : 0`, the null-guarded cached size read used
throughout the C++ code. -/
def cachedSize : BTree → Int
  | .nil => 0
  | .node _ _ _ _ s => s

/-- `node ? node->height : 0`, the null-guarded cached height read. -/
def cachedHeight : BTree → Int
  | .nil => 0
  | .node _ _ _ h _ => h

/-- `BinarySearchTree::insert_recursive`.  A fresh node gets
`height = 1`, `subtree_size = 1`.  On the way back up the code sets
`subtree_size = 1 + size(left) + size(right) + 1` (the extra `+ 1` is
literally what line 89 does) and `height = height(left) + height(right)`
(line 94 sums instead of taking `max + 1`). -/
def insert_recursive : BTree → Int → BTree
  | .nil, v => .node v .nil .nil 1 1
  | .node d l r hh ss, v =>
    if v < d then
      let l' := insert_recursive l v
      .node d l' r (cachedHeight l' + cachedHeight r) (1 + cachedSize l' + cachedSize r + 1)
    else if d < v then
      let r' := insert_recursive r v
      .node d l r' (cachedHeight l + cachedHeight r') (1 + cachedSize l + cachedSize r' + 1)
    else
      .node d l r hh ss

/-- `BinarySearchTree::find_min`: follow `left` links; the C++ code only ever
calls it on a non-null node, so the `nil` case is an arbitrary default. -/
def find_min : BTree → Int
  | .nil => 0
  | .node d .nil _ _ _ => d
  | .node _ (.node d' l' r' h' s') _ _ _ => find_min (.node d' l' r' h' s')

/-- `BinarySearchTree::remove_recursive`.  Standard BST deletion (missing key:
tree returned unchanged; one child: the child is hoisted; two children: the
in-order successor's data is copied down and removed from the right subtree).
The cached `height`/`subtree_size` fields are NOT recomputed on the way up
(the C++ body has no update after the recursion, only a comment). -/
def remove_recursive : BTree → Int → BTree
  | .nil, _ => .nil
  | .node d l r hh ss, v =>
    if v < d then
      .node d (remove_recursive l v) r hh ss
    else if d < v then
      .node d l (remove_recursive r v) hh ss
    else
      match l, r with
      | .nil, _ => r
      | _, .nil => l
      | _, _ =>
        let m := find_min r
        .node m l (remove_recursive r m) hh ss

/-- `BinarySearchTree::search_recursive`. -/
def search_recursive : BTree → Int → Bool
  | .nil, _ => false
  | .node d l r _ _, v =>
    if v = d then true
    else if v < d then search_recursive l v
    else search_recursive r v

/-- `BinarySearchTree::check_bst_recursive`: ordering audit with exclusive
`(min_val, max_val)` bounds; a node whose data is `≤ min_val` or `≥ max_val`
is reported as a violation. -/
def check_bst_recursive : BTree → Int → Int → Bool
  | .nil, _, _ => true
  | .node d l r _ _, lo, hi =>
    if d ≤ lo ∨ d ≥ hi then false
    else check_bst_recursive l lo d && check_bst_recursive r d hi

/-- `BinarySearchTree::check_subtree_sizes`: every node's cached
`subtree_size` must equal `1 + size(left) + size(right)` read from the
children's cached fields. -/
def check_subtree_sizes : BTree → Bool
  | .nil => true
  | .node _ l r _ s =>
    (s = 1 + cachedSize l + cachedSize r) && check_subtree_sizes l && check_subtree_sizes r

/-- `BinarySearchTree::count_nodes`: fresh recursive node count. -/
def count_nodes : BTree → Int
  | .nil => 0
  | .node _ l r _ _ => 1 + count_nodes l + count_nodes r

/-- The spec's height invariant, `height == 1 + max(height(left), height(right))`
checked at every node against the children's cached fields (the C++ auditor has
no height check; this states the invariant the spec asserts for the field). -/
def spec_height_ok : BTree → Bool
  | .nil => true
  | .node _ l r h _ =>
    (h = 1 + max (cachedHeight l) (cachedHeight r)) && spec_height_ok l && spec_height_ok r

end BTree

/-- Shallow embedding of `BinarySearchTree`: root plus the `total_nodes`
counter (`node_count` in the spec), a C++ `int`. -/
structure BinarySearchTree where
  root : BTree
  total_nodes : Int
deriving DecidableEq, Repr

namespace BinarySearchTree

/-- `BinarySearchTree()` constructor: null root, zero count. -/
def empty : BinarySearchTree := ⟨.nil, 0⟩

/-- `BinarySearchTree::insert`: delegates to `insert_recursive`, then
increments `total_nodes` unconditionally (line 30, even on a duplicate). -/
def insert (t : BinarySearchTree) (v : Int) : BinarySearchTree :=
  ⟨BTree.insert_recursive t.root v, t.total_nodes + 1⟩

/-- `BinarySearchTree::remove`: delegates to `remove_recursive`, then
decrements `total_nodes` unconditionally (line 41, even when absent). -/
def remove (t : BinarySearchTree) (v : Int) : BinarySearchTree :=
  ⟨BTree.remove_recursive t.root v, t.total_nodes - 1⟩

/-- `BinarySearchTree::search`. -/
def search (t : BinarySearchTree) (v : Int) : Bool :=
  BTree.search_recursive t.root v

/-- The ordering check of `check_bst_invariant`:
`check_bst_recursive(root, INT_MIN, INT_MAX)`. -/
def check_ordering (t : BinarySearchTree) : Bool :=
  BTree.check_bst_recursive t.root INT_MIN INT_MAX

/-- The node-count check of `check_bst_invariant`:
`count_nodes(root) == total_nodes`. -/
def check_count (t : BinarySearchTree) : Bool :=
  BTree.count_nodes t.root = t.total_nodes

/-- `BinarySearchTree::check_bst_invariant`: conjunction of the ordering,
subtree-size and node-count audits. -/
def check_bst_invariant (t : BinarySearchTree) : Bool :=
  check_ordering t && BTree.check_subtree_sizes t.root && check_count t

end BinarySearchTree

/-- A single mutating call on the tree, used to describe reachable states. -/
inductive TreeOp where
  | ins (v : Int)
  | del (v : Int)
deriving DecidableEq, Repr

/-- The key an operation carries. -/
def TreeOp.key : TreeOp → Int
  | .ins v => v
  | .del v => v

/-- Apply one operation to a tree state. -/
def applyOp (t : BinarySearchTree) : TreeOp → BinarySearchTree
  | .ins v => t.insert v
  | .del v => t.remove v

/-- The state reached from the fresh tree by a sequence of operations. -/
def runOps (ops : List TreeOp) : BinarySearchTree :=
  ops.foldl applyOp BinarySearchTree.empty

/-! ## Priority queue -/

/-- `std::swap(heap[i], heap[j])` on a list. -/
def listSwap (l : List Int) (i j : Nat) : List Int :=
  (l.set i (l.getD j 0)).set j (l.getD i 0)

theorem listSwap_length (l : List Int) (i j : Nat) :
    (listSwap l i j).length = l.length := by
  simp [listSwap]

/-- The child-beats-current test used by both sift directions:
`is_max_heap ? (a > b) : (a < b)` with `a` the candidate child. -/
def beats (mx : Bool) (a b : Int) : Prop :=
  if mx then b < a else a < b

instance (mx : Bool) (a b : Int) : Decidable (beats mx a b) := by
  unfold beats; split <;> infer_instance

/-- `PriorityQueue::heap_up`: while not at the root and the element beats its
parent, swap with the parent and continue from the parent's position. -/
def heap_up (mx : Bool) (h : List Int) (index : Nat) : List Int :=
  if index = 0 then h
  else if beats mx (h.getD index 0) (h.getD ((index - 1) / 2) 0) then
    heap_up mx (listSwap h index ((index - 1) / 2)) ((index - 1) / 2)
  else h
termination_by index
decreasing_by omega

/-- The index `target` computed by `PriorityQueue::heap_down`: the in-range
child that beats the current target (left child tested against `index`, then
the right child against the updated target), or `index` itself. -/
def down_target (mx : Bool) (h : List Int) (index : Nat) : Nat :=
  let lc := 2 * index + 1
  let rc := 2 * index + 2
  let t1 := if lc < h.length ∧ beats mx (h.getD lc 0) (h.getD index 0) then lc else index
  if rc < h.length ∧ beats mx (h.getD rc 0) (h.getD t1 0) then rc else t1

theorem down_target_bounds (mx : Bool) (h : List Int) (i : Nat)
    (hne : down_target mx h i ≠ i) :
    i < down_target mx h i ∧ down_target mx h i < h.length := by
  simp only [down_target] at hne ⊢
  split_ifs at hne ⊢ with h1 h2 h3 <;> omega

/-- `PriorityQueue::heap_down`: if the target moved off `index`, swap with it
and continue from the target's position. -/
def heap_down (mx : Bool) (h : List Int) (index : Nat) : List Int :=
  let target := down_target mx h index
  if target ≠ index then heap_down mx (listSwap h index target) target else h
termination_by h.length - index
decreasing_by
  rename_i hne
  simp only [listSwap_length]
  have := down_target_bounds mx h index hne
  omega

/-- Shallow embedding of `PriorityQueue`: backing vector and the fixed
`is_max_heap` mode. -/
structure PriorityQueue where
  heap : List Int
  is_max_heap : Bool
deriving DecidableEq, Repr

namespace PriorityQueue

/-- `PriorityQueue(max_heap)` constructor: empty backing vector. -/
def fresh (mx : Bool) : PriorityQueue := ⟨[], mx⟩

/-- `PriorityQueue::insert`: `push_back`, then `heap_up(heap.size() - 1)`. -/
def insert (pq : PriorityQueue) (v : Int) : PriorityQueue :=
  let h := pq.heap ++ [v]
  ⟨heap_up pq.is_max_heap h (h.length - 1), pq.is_max_heap⟩

/-- `PriorityQueue::extract_top`: `none` models the thrown
`std::runtime_error("Heap is empty")`.  Otherwise the root is returned, the
last element is moved into slot 0, the vector shrinks by one, and the
relocated root is sifted down ONLY when the resulting heap has more than 3
elements (lines 220-225: the `heap.size() > 3` guard). -/
def extract_top (pq : PriorityQueue) : Option (Int × PriorityQueue) :=
  match pq.heap with
  | [] => none
  | x :: _ =>
    let h := pq.heap
    let h1 := (h.set 0 (h.getLast?.getD 0)).dropLast
    let h2 :=
      if h1.isEmpty then h1
      else if 3 < h1.length then heap_down pq.is_max_heap h1 0 else h1
    some (x, ⟨h2, pq.is_max_heap⟩)

/-- One parent/child comparison of `check_heap_property`: vacuously true when
the child index is out of range. -/
def pair_ok (mx : Bool) (h : List Int) (i c : Nat) : Bool :=
  if c < h.length then
    (if mx then decide (h.getD c 0 ≤ h.getD i 0) else decide (h.getD i 0 ≤ h.getD c 0))
  else true

/-- `PriorityQueue::check_heap_property`: every index is compared against both
in-range children. -/
def check_heap_property (pq : PriorityQueue) : Bool :=
  (List.range pq.heap.length).all fun i =>
    pair_ok pq.is_max_heap pq.heap i (2 * i + 1) &&
    pair_ok pq.is_max_heap pq.heap i (2 * i + 2)

/-- Repeated `extract_top` calls (as the test scenarios perform), collecting
the returned values until the heap is empty or the call budget runs out. -/
def extract_list : Nat → PriorityQueue → List Int
  | 0, _ => []
  | n + 1, pq =>
    match extract_top pq with
    | none => []
    | some (x, pq') => x :: extract_list n pq'

/-- Insert a whole list in order. -/
def insert_all (pq : PriorityQueue) (vs : List Int) : PriorityQueue :=
  vs.foldl insert pq

end PriorityQueue

/-! ## Concrete evaluations of the code at the claims' inputs -/

/-- C1: after inserting 1 then 2 into a fresh tree, the root's cached
`subtree_size` is 3 (the formula adds 1 twice) instead of `1 + 0 + 1 = 2`, and
its cached `height` is 1 (the formula sums child heights) instead of
`1 + max(0, 1) = 2`; both the size audit and the spec's height rule fail on
a node of the insertion path, refuting the claimed recomputation rule. -/
theorem c1_insert_breaks_cached_fields :
    BTree.cachedSize (runOps [.ins 1, .ins 2]).root = 3 ∧
    BTree.cachedHeight (runOps [.ins 1, .ins 2]).root = 1 ∧
    BTree.check_subtree_sizes (runOps [.ins 1, .ins 2]).root = false ∧
    BTree.spec_height_ok (runOps [.ins 1, .ins 2]).root = false := by
  decide

/-- C2: inserting 1,2,3,4 into a fresh max-first heap yields [4,3,2,1];
`extract_top` then returns 4 and leaves [1,3,2] — the relocated root 1 is NOT
sifted down because the resulting size 3 fails the `size > 3` guard — and the
heap-order audit fails on the result. -/
theorem c2_extract_top_skips_sift :
    PriorityQueue.extract_top (PriorityQueue.insert_all (.fresh true) [1, 2, 3, 4]) =
      some (4, ⟨[1, 3, 2], true⟩) ∧
    PriorityQueue.check_heap_property ⟨[1, 3, 2], true⟩ = false := by
  constructor
  · simp +decide [PriorityQueue.insert_all, PriorityQueue.insert, PriorityQueue.fresh,
      PriorityQueue.extract_top, heap_up, heap_down, down_target, listSwap, beats]
  · decide

/-- C3: inserting key 1 twice into a fresh tree leaves one node in the tree
but `total_nodes = 2`: the duplicate insert is not a no-op on `node_count`
(the counter increments unconditionally), so the count audit fails. -/
theorem c3_duplicate_insert_not_noop :
    (runOps [.ins 1, .ins 1]).total_nodes = 2 ∧
    BTree.count_nodes (runOps [.ins 1, .ins 1]).root = 1 ∧
    BinarySearchTree.check_count (runOps [.ins 1, .ins 1]) = false := by
  decide

/-- C4: removing the absent key 5 leaves the node graph unchanged but
decrements `total_nodes` unconditionally: on the empty tree the counter
becomes -1, and after inserting 1 it becomes 0 while one node remains. -/
theorem c4_remove_absent_decrements :
    (runOps [.del 5]).total_nodes = -1 ∧
    (runOps [.ins 1, .del 5]).root = (runOps [.ins 1]).root ∧
    (runOps [.ins 1, .del 5]).total_nodes = 0 ∧
    BTree.count_nodes (runOps [.ins 1, .del 5]).root = 1 := by
  decide

/-- C5: after the distinct-key inserts 1, 2 the ordering and node-count audits
pass but the subtree-size audit fails (the insert formula adds 1 twice), so
`check_bst_invariant` does not report all three checks passing. -/
theorem c5_audit_fails_on_distinct_inserts :
    BinarySearchTree.check_ordering (runOps [.ins 1, .ins 2]) = true ∧
    BinarySearchTree.check_count (runOps [.ins 1, .ins 2]) = true ∧
    BTree.check_subtree_sizes (runOps [.ins 1, .ins 2]).root = false ∧
    BinarySearchTree.check_bst_invariant (runOps [.ins 1, .ins 2]) = false := by
  decide

/-- C6: the spec's concrete heap scenario.  After inserting
[5,10,3,8,15,2,12,7] the audit does pass, but eight successive `extract_top`
calls return [15,12,10,8,7,2,5,3] — not the claimed [15,12,10,8,7,5,3,2] and
not non-increasing (2 precedes 5) — because the sift-down is skipped once the
heap shrinks to 3 elements or fewer. -/
theorem c6_extraction_sequence_wrong :
    PriorityQueue.check_heap_property
      (PriorityQueue.insert_all (.fresh true) [5, 10, 3, 8, 15, 2, 12, 7]) = true ∧
    PriorityQueue.extract_list 8
      (PriorityQueue.insert_all (.fresh true) [5, 10, 3, 8, 15, 2, 12, 7]) =
      [15, 12, 10, 8, 7, 2, 5, 3] ∧
    ([15, 12, 10, 8, 7, 2, 5, 3] : List Int) ≠ [15, 12, 10, 8, 7, 5, 3, 2] ∧
    ¬ ([15, 12, 10, 8, 7, 2, 5, 3] : List Int).Sorted (· ≥ ·) := by
  refine ⟨?_, ?_, by decide, by decide⟩ <;>
    simp +decide [PriorityQueue.insert_all, PriorityQueue.insert, PriorityQueue.fresh,
      PriorityQueue.extract_top, PriorityQueue.extract_list, PriorityQueue.check_heap_property,
      PriorityQueue.pair_ok, heap_up, heap_down, down_target, listSwap, beats]

/-- C7: after inserting 1, 2 and removing the present key 2, `search 2` is
false and `total_nodes` drops by exactly one as claimed, but the audit fails:
the cached subtree sizes (already wrong from insertion and never recomputed
on removal) disagree with the structure. -/
theorem c7_remove_present_audit_fails :
    BinarySearchTree.search (runOps [.ins 1, .ins 2, .del 2]) 2 = false ∧
    (runOps [.ins 1, .ins 2, .del 2]).total_nodes = 1 ∧
    (runOps [.ins 1, .ins 2]).total_nodes = 2 ∧
    BinarySearchTree.check_bst_invariant (runOps [.ins 1, .ins 2, .del 2]) = false := by
  decide

/-! ## List-level helper lemmas for the sift functions -/

theorem getD_set_self (l : List Int) (i : Nat) (a : Int) (h : i < l.length) :
    (l.set i a).getD i 0 = a := by
  simp [List.getD_eq_getElem?_getD, List.getElem?_set_self h]

theorem getD_set_ne (l : List Int) (i j : Nat) (a : Int) (h : i ≠ j) :
    (l.set i a).getD j 0 = l.getD j 0 := by
  simp [List.getD_eq_getElem?_getD, List.getElem?_set_ne h]

theorem listSwap_getD_fst (l : List Int) (i j : Nat) (hij : i ≠ j)
    (hi : i < l.length) :
    (listSwap l i j).getD i 0 = l.getD j 0 := by
  rw [listSwap, getD_set_ne _ _ _ _ (Ne.symm hij), getD_set_self _ _ _ hi]

theorem listSwap_getD_snd (l : List Int) (i j : Nat) (hj : j < l.length) :
    (listSwap l i j).getD j 0 = l.getD i 0 := by
  rw [listSwap, getD_set_self _ _ _ (by simpa using hj)]

theorem listSwap_getD_other (l : List Int) (i j x : Nat) (hxi : x ≠ i) (hxj : x ≠ j) :
    (listSwap l i j).getD x 0 = l.getD x 0 := by
  rw [listSwap, getD_set_ne _ _ _ _ (Ne.symm hxj), getD_set_ne _ _ _ _ (Ne.symm hxi)]

theorem cons_set_perm (t : List Int) (k : Nat) (a : Int) (hk : k < t.length) :
    (t.getD k 0 :: t.set k a).Perm (a :: t) := by
  induction t generalizing k with
  | nil => simp at hk
  | cons b t' ih =>
    cases k with
    | zero => simpa using List.Perm.swap a b t'
    | succ k' =>
      simp only [List.getD_cons_succ, List.set_cons_succ]
      exact (List.Perm.swap b _ _).trans
        (((ih k' (by simpa using hk)).cons b).trans (List.Perm.swap a b t'))

theorem listSwap_perm (l : List Int) (i j : Nat) (hi : i < l.length) (hj : j < l.length) :
    (listSwap l i j).Perm l := by
  induction l generalizing i j with
  | nil => simp at hi
  | cons a t ih =>
    cases i with
    | zero =>
      cases j with
      | zero => simp [listSwap]
      | succ j' =>
        simp only [listSwap, List.getD_cons_succ, List.getD_cons_zero, List.set_cons_zero,
          List.set_cons_succ]
        exact cons_set_perm t j' a (by simpa using hj)
    | succ i' =>
      cases j with
      | zero =>
        simp only [listSwap, List.getD_cons_succ, List.getD_cons_zero, List.set_cons_succ,
          List.set_cons_zero]
        exact cons_set_perm t i' a (by simpa using hi)
      | succ j' =>
        simp only [listSwap, List.getD_cons_succ, List.set_cons_succ]
        exact (ih i' j' (by simpa using hi) (by simpa using hj)).cons a

theorem heap_down_perm (mx : Bool) (h : List Int) (i : Nat) :
    (heap_down mx h i).Perm h := by
  induction h, i using heap_down.induct mx with
  | case1 h i target hne ih =>
    rw [heap_down]
    simp only [if_pos hne]
    have hb := down_target_bounds mx h i hne
    exact ih.trans (listSwap_perm h i _ (by omega) hb.2)
  | case2 h i target hne =>
    rw [heap_down]
    simp only [if_neg hne]
    exact List.Perm.refl h

theorem heap_down_length (mx : Bool) (h : List Int) (i : Nat) :
    (heap_down mx h i).length = h.length :=
  (heap_down_perm mx h i).length_eq

/-- The intermediate state of `extract_top`: the last element moved into slot
0, then the vector shrunk by one, is a permutation of the tail. -/
theorem pop_move_perm (x : Int) (xs : List Int) :
    (((x :: xs).set 0 ((x :: xs).getLast?.getD 0)).dropLast).Perm xs := by
  cases xs with
  | nil => simp
  | cons y ys =>
    have hne : (y :: ys) ≠ [] := by simp
    have hL : (x :: y :: ys).getLast?.getD 0 = (y :: ys).getLast hne := by
      rw [List.getLast?_eq_getLast (x :: y :: ys) (by simp)]
      simp [List.getLast_cons hne]
    rw [List.set_cons_zero, hL, List.dropLast_cons₂]
    have hp := List.perm_append_singleton ((y :: ys).getLast hne) ((y :: ys).dropLast)
    rw [List.dropLast_concat_getLast hne] at hp
    exact hp.symm

/-- C8: `extract_top` fails exactly on the empty backing vector; on a
non-empty heap of `n` elements it returns the element at index 0 and leaves
`n - 1` elements, which are (up to the sift-down's reordering) precisely the
remaining elements after the last one is moved into index 0. -/
theorem c8_extract_top_contract (pq : PriorityQueue) :
    (PriorityQueue.extract_top pq = none ↔ pq.heap = []) ∧
    (∀ x pq', PriorityQueue.extract_top pq = some (x, pq') →
      x = pq.heap.getD 0 0 ∧
      pq'.heap.length = pq.heap.length - 1 ∧
      pq'.heap.Perm pq.heap.tail ∧
      pq'.is_max_heap = pq.is_max_heap) := by
  obtain ⟨h, mx⟩ := pq
  cases h with
  | nil =>
    refine ⟨by simp [PriorityQueue.extract_top], ?_⟩
    intro x pq' hx
    simp [PriorityQueue.extract_top] at hx
  | cons a xs =>
    refine ⟨by simp [PriorityQueue.extract_top], ?_⟩
    intro x pq' hx
    simp only [PriorityQueue.extract_top, Option.some.injEq, Prod.mk.injEq] at hx
    obtain ⟨rfl, rfl⟩ := hx
    refine ⟨rfl, ?_, ?_, rfl⟩
    · split_ifs with h1 h2 <;>
      simp [heap_down_length, List.length_dropLast]
    · have base := pop_move_perm a xs
      split_ifs with h1 h2
      · simpa using base
      · exact (heap_down_perm _ _ _).trans (by simpa using base)
      · simpa using base

/-- Witness for C8 at the concrete heap [5,1,2]: extraction returns 5 and
leaves the two remaining elements. -/
theorem c8_extract_top_contract_witness :
    (5 : Int) = ([5, 1, 2] : List Int).getD 0 0 ∧
    ([2, 1] : List Int).length = ([5, 1, 2] : List Int).length - 1 ∧
    ([2, 1] : List Int).Perm ([5, 1, 2] : List Int).tail ∧
    true = true :=
  (c8_extract_top_contract ⟨[5, 1, 2], true⟩).2 5 ⟨[2, 1], true⟩ (by decide)

/-! ## Heap-order invariant and the sift-up proof -/

/-- Child/parent orderedness: `a` (the child) compares no-better than `b`
(the parent) under the heap's mode. -/
def hle (mx : Bool) (a b : Int) : Prop :=
  if mx then a ≤ b else b ≤ a

theorem hle_refl (mx : Bool) (a : Int) : hle mx a a := by
  unfold hle; split <;> exact le_refl a

theorem hle_trans {mx : Bool} {a b c : Int} (h1 : hle mx a b) (h2 : hle mx b c) :
    hle mx a c := by
  unfold hle at *
  cases mx <;> simp_all <;> omega

theorem hle_of_not_beats {mx : Bool} {a b : Int} (h : ¬ beats mx a b) : hle mx a b := by
  unfold beats at h
  unfold hle
  cases mx <;> simp_all

theorem hle_of_beats {mx : Bool} {a b : Int} (h : beats mx a b) : hle mx b a := by
  unfold beats at h
  unfold hle
  cases mx <;> simp_all <;> omega

/-- The heap-order property, phrased child-to-parent: every non-root in-range
index compares no-better than its parent `(j-1)/2`. -/
def HeapP (mx : Bool) (h : List Int) : Prop :=
  ∀ j, 0 < j → j < h.length → hle mx (h.getD j 0) (h.getD ((j - 1) / 2) 0)

theorem child_cases {j : Nat} (hj : 0 < j) :
    j = 2 * ((j - 1) / 2) + 1 ∨ j = 2 * ((j - 1) / 2) + 2 := by omega

theorem parent_of_left (k : Nat) : (2 * k + 1 - 1) / 2 = k := by omega

theorem parent_of_right (k : Nat) : (2 * k + 2 - 1) / 2 = k := by omega

/-- Sift-up correctness: if the list is heap-ordered everywhere except
possibly at index `k` against its parent, and `k`'s children (if any) are
already no better than `k`'s parent, then `heap_up` from `k` restores the
full heap-order property. -/
theorem heap_up_correct (mx : Bool) :
    ∀ k, ∀ h : List Int, k < h.length →
    (∀ j, 0 < j → j < h.length → j ≠ k →
      hle mx (h.getD j 0) (h.getD ((j - 1) / 2) 0)) →
    (∀ c, c < h.length → (c = 2 * k + 1 ∨ c = 2 * k + 2) → 0 < k →
      hle mx (h.getD c 0) (h.getD ((k - 1) / 2) 0)) →
    HeapP mx (heap_up mx h k) := by
  intro k
  induction k using Nat.strong_induction_on with
  | _ k ih =>
    intro h hklen h1 h2
    rw [heap_up]
    split_ifs with hk0 hswap
    · subst hk0
      exact fun j hj0 hjlen => h1 j hj0 hjlen (by omega)
    · -- swap with the parent p and recurse from p
      have hpk : (k - 1) / 2 < k := by omega
      have hplen : (k - 1) / 2 < h.length := by omega
      have hkp : k ≠ (k - 1) / 2 := by omega
      have swap_k : (listSwap h k ((k - 1) / 2)).getD k 0 = h.getD ((k - 1) / 2) 0 :=
        listSwap_getD_fst h k _ hkp hklen
      have swap_p : (listSwap h k ((k - 1) / 2)).getD ((k - 1) / 2) 0 = h.getD k 0 :=
        listSwap_getD_snd h k _ hplen
      have swap_o : ∀ x, x ≠ k → x ≠ (k - 1) / 2 →
          (listSwap h k ((k - 1) / 2)).getD x 0 = h.getD x 0 :=
        fun x hxk hxp => listSwap_getD_other h k _ x hxk hxp
      apply ih ((k - 1) / 2) hpk
      · rw [listSwap_length]; exact hplen
      · -- all positions other than p are parent-ordered in the swapped list
        intro j hj0 hjlen hjp
        rw [listSwap_length] at hjlen
        by_cases hjk : j = k
        · subst hjk
          rw [swap_k, swap_p]
          exact hle_of_beats hswap
        · rw [swap_o j hjk hjp]
          by_cases hq_k : (j - 1) / 2 = k
          · rw [hq_k, swap_k]
            have hchild := child_cases hj0
            rw [hq_k] at hchild
            exact h2 j hjlen hchild (by omega)
          · by_cases hq_p : (j - 1) / 2 = (k - 1) / 2
            · rw [hq_p, swap_p]
              exact hle_trans (hq_p ▸ h1 j hj0 hjlen hjk) (hle_of_beats hswap)
            · rw [swap_o _ hq_k hq_p]
              exact h1 j hj0 hjlen hjk
      · -- children of p in the swapped list are no better than p's parent
        intro c hclen hchild hp0
        rw [listSwap_length] at hclen
        have hg_k : ((k - 1) / 2 - 1) / 2 ≠ k := by omega
        have hg_p : ((k - 1) / 2 - 1) / 2 ≠ (k - 1) / 2 := by omega
        rw [swap_o _ hg_k hg_p]
        by_cases hck : c = k
        · subst hck
          rw [swap_k]
          exact h1 _ hp0 hplen (by omega)
        · have hcp : c ≠ (k - 1) / 2 := by omega
          rw [swap_o c hck hcp]
          have hc0 : 0 < c := by omega
          have hcpar : (c - 1) / 2 = (k - 1) / 2 := by omega
          exact hle_trans (hcpar ▸ h1 c hc0 hclen hck) (h1 _ hp0 hplen (by omega))
    · -- no swap needed: position k already satisfies the property
      intro j hj0 hjlen
      by_cases hjk : j = k
      · subst hjk
        exact hle_of_not_beats hswap
      · exact h1 j hj0 hjlen hjk

theorem pair_ok_iff (mx : Bool) (h : List Int) (i c : Nat) :
    PriorityQueue.pair_ok mx h i c = true ↔
      (c < h.length → hle mx (h.getD c 0) (h.getD i 0)) := by
  unfold PriorityQueue.pair_ok hle
  cases mx <;> split_ifs <;> simp_all

/-- The audit `check_heap_property` passes exactly when the heap-order
property holds. -/
theorem check_heap_property_iff (pq : PriorityQueue) :
    PriorityQueue.check_heap_property pq = true ↔ HeapP pq.is_max_heap pq.heap := by
  unfold PriorityQueue.check_heap_property
  rw [List.all_eq_true]
  constructor
  · intro hall j hj0 hjlen
    have hi : (j - 1) / 2 < pq.heap.length := by omega
    have := hall ((j - 1) / 2) (by simpa using hi)
    rw [Bool.and_eq_true, pair_ok_iff, pair_ok_iff] at this
    rcases child_cases hj0 with hc | hc
    · have hcl := this.1 (by omega)
      rw [← hc] at hcl
      exact hcl
    · have hcl := this.2 (by omega)
      rw [← hc] at hcl
      exact hcl
  · intro hp i hi
    rw [List.mem_range] at hi
    rw [Bool.and_eq_true, pair_ok_iff, pair_ok_iff]
    constructor
    · intro hc
      have := hp (2 * i + 1) (by omega) hc
      rwa [parent_of_left] at this
    · intro hc
      have := hp (2 * i + 2) (by omega) hc
      rwa [parent_of_right] at this

/-- `PriorityQueue::insert` preserves the heap-order property: the appended
element is sifted up into place. -/
theorem insert_preserves_heap (pq : PriorityQueue) (v : Int)
    (hp : HeapP pq.is_max_heap pq.heap) :
    HeapP pq.is_max_heap (pq.insert v).heap := by
  unfold PriorityQueue.insert
  simp only [List.length_append, List.length_cons, List.length_nil]
  have hlen : (pq.heap ++ [v]).length = pq.heap.length + 1 := by simp
  have hidx : pq.heap.length + 1 - 1 = pq.heap.length := by omega
  rw [hidx]
  apply heap_up_correct pq.is_max_heap pq.heap.length (pq.heap ++ [v]) (by omega)
  · intro j hj0 hjlen hjk
    rw [hlen] at hjlen
    have hjl : j < pq.heap.length := by omega
    have hpl : (j - 1) / 2 < pq.heap.length := by omega
    rw [List.getD_append _ _ _ _ hjl, List.getD_append _ _ _ _ hpl]
    exact hp j hj0 hjl
  · intro c hclen hchild _
    rw [hlen] at hclen
    omega

/-- C9: for every sequence of inserts into a fresh heap of either mode, the
heap-order audit passes (this covers every prefix, hence after every single
insertion, at every size). -/
theorem c9_insert_audit_passes (mx : Bool) (vs : List Int) :
    PriorityQueue.check_heap_property (PriorityQueue.insert_all (.fresh mx) vs) = true := by
  suffices hgen : ∀ pq : PriorityQueue, HeapP pq.is_max_heap pq.heap →
      PriorityQueue.check_heap_property (PriorityQueue.insert_all pq vs) = true by
    apply hgen
    intro j hj0 hjlen
    simp [PriorityQueue.fresh] at hjlen
  induction vs with
  | nil => intro pq hp; rw [PriorityQueue.insert_all, List.foldl_nil, check_heap_property_iff]; exact hp
  | cons v vs ih =>
    intro pq hp
    rw [PriorityQueue.insert_all, List.foldl_cons]
    exact ih (pq.insert v) (insert_preserves_heap pq v hp)

/-! ## The strict BST ordering invariant -/

/-- Every key in the tree satisfies `p` (cached fields are irrelevant). -/
def ForallKeys (p : Int → Prop) : BTree → Prop
  | .nil => True
  | .node d l r _ _ => p d ∧ ForallKeys p l ∧ ForallKeys p r

/-- The glossary's strict BST ordering invariant: every node's key is
strictly greater than all keys in its left subtree and strictly less than
all keys in its right subtree. -/
def IsBST : BTree → Prop
  | .nil => True
  | .node d l r _ _ =>
      ForallKeys (fun x => x < d) l ∧ ForallKeys (fun x => d < x) r ∧ IsBST l ∧ IsBST r

theorem ForallKeys_mono {p q : Int → Prop} (hpq : ∀ x, p x → q x) :
    ∀ {t : BTree}, ForallKeys p t → ForallKeys q t := by
  intro t
  induction t with
  | nil => intro; trivial
  | node d l r hh ss ihl ihr =>
    intro h
    exact ⟨hpq d h.1, ihl h.2.1, ihr h.2.2⟩

theorem ForallKeys_and {p q : Int → Prop} :
    ∀ {t : BTree}, ForallKeys p t → ForallKeys q t → ForallKeys (fun x => p x ∧ q x) t := by
  intro t
  induction t with
  | nil => intro _ _; trivial
  | node d l r hh ss ihl ihr =>
    intro hp hq
    exact ⟨⟨hp.1, hq.1⟩, ihl hp.2.1 hq.2.1, ihr hp.2.2 hq.2.2⟩

theorem ForallKeys_insert {p : Int → Prop} {v : Int} (hv : p v) :
    ∀ {t : BTree}, ForallKeys p t → ForallKeys p (BTree.insert_recursive t v) := by
  intro t
  induction t with
  | nil => intro _; exact ⟨hv, trivial, trivial⟩
  | node d l r hh ss ihl ihr =>
    intro h
    rw [BTree.insert_recursive]
    split_ifs with h1 h2
    · exact ⟨h.1, ihl h.2.1, h.2.2⟩
    · exact ⟨h.1, h.2.1, ihr h.2.2⟩
    · exact h

theorem IsBST_insert (v : Int) : ∀ {t : BTree}, IsBST t → IsBST (BTree.insert_recursive t v) := by
  intro t
  induction t with
  | nil => intro _; exact ⟨trivial, trivial, trivial, trivial⟩
  | node d l r hh ss ihl ihr =>
    intro h
    rw [BTree.insert_recursive]
    split_ifs with h1 h2
    · exact ⟨ForallKeys_insert (p := fun x => x < d) h1 h.1, h.2.1, ihl h.2.2.1, h.2.2.2⟩
    · exact ⟨h.1, ForallKeys_insert (p := fun x => d < x) h2 h.2.1, h.2.2.1, ihr h.2.2.2⟩
    · exact h

theorem find_min_key {p : Int → Prop} :
    ∀ {t : BTree}, t ≠ .nil → ForallKeys p t → p (BTree.find_min t) := by
  intro t
  induction t with
  | nil => intro hne; exact absurd rfl hne
  | node d l r hh ss ihl ihr =>
    intro _ h
    cases l with
    | nil => exact h.1
    | node d' l' r' h' s' =>
      rw [BTree.find_min]
      exact ihl (by simp) h.2.1

theorem ForallKeys_remove {p : Int → Prop} :
    ∀ (t : BTree) (v : Int), ForallKeys p t → ForallKeys p (BTree.remove_recursive t v) := by
  intro t
  induction t with
  | nil => intro v _; trivial
  | node d l r hh ss ihl ihr =>
    intro v h
    rw [BTree.remove_recursive.eq_def]
    dsimp only []
    split_ifs with h1 h2
    · exact ⟨h.1, ihl v h.2.1, h.2.2⟩
    · exact ⟨h.1, h.2.1, ihr v h.2.2⟩
    · cases l with
      | nil =>
        cases r with
        | nil => trivial
        | node dr lr rr hr sr => exact h.2.2
      | node dl ll rl hl sl =>
        cases r with
        | nil => exact h.2.1
        | node dr lr rr hr sr =>
          exact ⟨find_min_key (by simp) h.2.2, h.2.1, ihr _ h.2.2⟩

theorem remove_min : ∀ {t : BTree}, IsBST t → t ≠ .nil →
    ForallKeys (fun x => BTree.find_min t < x)
      (BTree.remove_recursive t (BTree.find_min t)) := by
  intro t
  induction t with
  | nil => intro _ hne; exact absurd rfl hne
  | node d l r hh ss ihl ihr =>
    intro hb _
    cases l with
    | nil =>
      simp only [BTree.find_min]
      rw [BTree.remove_recursive.eq_def]
      dsimp only []
      rw [if_neg (lt_irrefl d), if_neg (lt_irrefl d)]
      cases r with
      | nil => trivial
      | node dr lr rr hr sr => exact hb.2.1
    | node dl ll rl hl sl =>
      have hmd : BTree.find_min (BTree.node dl ll rl hl sl) < d :=
        find_min_key (by simp) hb.1
      simp only [BTree.find_min]
      rw [BTree.remove_recursive.eq_def]
      dsimp only []
      rw [if_pos hmd]
      exact ⟨hmd, ihl hb.2.2.1 (by simp),
        ForallKeys_mono (fun x hx => lt_trans hmd hx) hb.2.1⟩

theorem IsBST_remove : ∀ (t : BTree) (v : Int), IsBST t → IsBST (BTree.remove_recursive t v) := by
  intro t
  induction t with
  | nil => intro v _; trivial
  | node d l r hh ss ihl ihr =>
    intro v hb
    rw [BTree.remove_recursive.eq_def]
    dsimp only []
    split_ifs with h1 h2
    · exact ⟨ForallKeys_remove l v hb.1, hb.2.1, ihl v hb.2.2.1, hb.2.2.2⟩
    · exact ⟨hb.1, ForallKeys_remove r v hb.2.1, hb.2.2.1, ihr v hb.2.2.2⟩
    · cases l with
      | nil =>
        cases r with
        | nil => trivial
        | node dr lr rr hr sr => exact hb.2.2.2
      | node dl ll rl hl sl =>
        cases r with
        | nil => exact hb.2.2.1
        | node dr lr rr hr sr =>
          have hdm : d < BTree.find_min (BTree.node dr lr rr hr sr) :=
            find_min_key (by simp) hb.2.1
          exact ⟨ForallKeys_mono (fun x hx => lt_trans hx hdm) hb.1,
            remove_min hb.2.2.2 (by simp), hb.2.2.1, ihr _ hb.2.2.2⟩

theorem check_of_IsBST : ∀ (t : BTree) (lo hi : Int), IsBST t →
    ForallKeys (fun x => lo < x ∧ x < hi) t →
    BTree.check_bst_recursive t lo hi = true := by
  intro t
  induction t with
  | nil => intro lo hi _ _; rfl
  | node d l r hh ss ihl ihr =>
    intro lo hi hb h
    have hd := h.1
    rw [BTree.check_bst_recursive]
    rw [if_neg (by omega : ¬(d ≤ lo ∨ d ≥ hi))]
    rw [Bool.and_eq_true]
    constructor
    · exact ihl lo d hb.2.2.1
        (ForallKeys_mono (fun x hx => ⟨hx.1.1, hx.2⟩) (ForallKeys_and h.2.1 hb.1))
    · exact ihr d hi hb.2.2.2
        (ForallKeys_mono (fun x hx => ⟨hx.2, hx.1.2⟩) (ForallKeys_and h.2.2 hb.2.1))

/-- Every operation sequence preserves the BST invariant and any key
predicate satisfied by all inserted keys. -/
theorem foldl_ops_invariant (p : Int → Prop) :
    ∀ (ops : List TreeOp) (t : BinarySearchTree),
      IsBST t.root → ForallKeys p t.root → (∀ op ∈ ops, p op.key) →
      IsBST ((ops.foldl applyOp t).root) ∧ ForallKeys p ((ops.foldl applyOp t).root) := by
  intro ops
  induction ops with
  | nil => intro t h1 h2 _; exact ⟨h1, h2⟩
  | cons op ops ih =>
    intro t h1 h2 hk
    rw [List.foldl_cons]
    apply ih
    · cases op with
      | ins v => exact IsBST_insert v h1
      | del v => exact IsBST_remove _ v h1
    · cases op with
      | ins v => exact ForallKeys_insert (hk (.ins v) (by simp)) h2
      | del v => exact ForallKeys_remove _ v h2
    · intro o ho
      exact hk o (List.mem_cons_of_mem _ ho)

/-- C10 (amended): the strict BST ordering invariant holds in every state
reachable by inserts and removes from the empty tree; the audit's ordering
check moreover passes in every reachable state whose keys all lie strictly
between INT_MIN and INT_MAX. -/
theorem c10_bst_ordering_invariant (ops : List TreeOp) :
    IsBST (runOps ops).root ∧
    ((∀ op ∈ ops, INT_MIN < op.key ∧ op.key < INT_MAX) →
      BinarySearchTree.check_ordering (runOps ops) = true) := by
  constructor
  · exact (foldl_ops_invariant (fun _ => True) ops BinarySearchTree.empty
      trivial trivial (fun _ _ => trivial)).1
  · intro hk
    have h := foldl_ops_invariant (fun x => INT_MIN < x ∧ x < INT_MAX) ops
      BinarySearchTree.empty trivial trivial hk
    exact check_of_IsBST _ _ _ h.1 h.2

/-- Witness for C10 at the concrete sequence insert 5, insert 3, remove 5. -/
theorem c10_bst_ordering_invariant_witness :
    IsBST (runOps [.ins 5, .ins 3, .del 5]).root ∧
    BinarySearchTree.check_ordering (runOps [.ins 5, .ins 3, .del 5]) = true :=
  ⟨(c10_bst_ordering_invariant [.ins 5, .ins 3, .del 5]).1,
   (c10_bst_ordering_invariant [.ins 5, .ins 3, .del 5]).2 (by decide)⟩

/-- C10 counterexample to the claim as stated: the state reached by the
single operation insert INT_MIN satisfies the strict BST ordering invariant,
yet the audit's ordering check reports a violation, because
`check_bst_recursive` uses exclusive bounds and rejects any node whose data
equals INT_MIN (or INT_MAX). -/
theorem c10_audit_ordering_counterexample :
    IsBST (runOps [.ins INT_MIN]).root ∧
    BinarySearchTree.check_ordering (runOps [.ins INT_MIN]) = false := by
  constructor
  · exact ⟨trivial, trivial, trivial, trivial⟩
  · decide
